import Mathlib

/-!
Verification development for the ManufacturerBackend repository.

Embedded source:
  app/services.py   WarehouseService and its allocation loop
  api/views.py      ProductMaterialsAPIView, its allocation loop, validation
                    and the post pipeline
  app/validators.py ProductRequestValidator

Quantities and prices are Python floats in the source; the embedding uses
exact rationals. Python dicts are modelled as insertion-ordered association
lists, matching dict iteration and update semantics. Request payloads are
modelled by a JSON-like value type.
-/

namespace Mfg

/-- Material row of app/models.py: integer primary key and a display name. -/
structure Material where
  id : Int
  name : String
deriving DecidableEq

/-- Warehouse row of app/models.py: one stock lot of a material, with a
mutable remainder and a unit price. -/
structure Lot where
  id : Int
  material_id : Int
  remainder : ℚ
  price : ℚ
deriving DecidableEq

/-- One entry of the list returned by the get_stock_distribution methods. -/
structure AllocationLine where
  warehouse_id : Option Int
  material : String
  qty : ℚ
  price : Option ℚ
deriving DecidableEq

/-- Product row of app/models.py. -/
structure Product where
  id : Int
  name : String
deriving DecidableEq

/-- ProductMaterial row of app/models.py, with the material reference
resolved, as produced by select_related. -/
structure ProductMaterial where
  product_id : Int
  material : Material
  quantity : ℚ
deriving DecidableEq

/-- One entry of the result list assembled by ProductMaterialsAPIView.post. -/
structure ProductResult where
  product_name : String
  product_qty : ℚ
  product_materials : List AllocationLine
deriving DecidableEq

/-- Lookup in a Python dict keyed by integers: first (unique) matching key. -/
def dictGet {α : Type} : List (Int × α) → Int → Option α
  | [], _ => none
  | (k, v) :: rest, key => if k = key then some v else dictGet rest key

/-- Writing d[k] = v into an existing key of a Python dict: the value is
replaced in place, the key keeps its position. Absent keys are untouched. -/
def dictSet {α : Type} : List (Int × α) → Int → α → List (Int × α)
  | [], _, _ => []
  | (k, v) :: rest, key, val =>
    if k = key then (k, val) :: rest else (k, v) :: dictSet rest key val

/-- Writing d[k] = v into a Python dict: replace the value in place when the
key exists, otherwise append the new key at the end. -/
def dictUpsert {α : Type} : List (Int × α) → Int → α → List (Int × α)
  | [], key, val => [(key, val)]
  | (k, v) :: rest, key, val =>
    if k = key then (k, val) :: rest else (k, v) :: dictUpsert rest key val

/-- The grouping idiom of the source: if key not in d, d[key] = [];
d[key].append(v). -/
def dictAppend {α : Type} : List (Int × List α) → Int → α → List (Int × List α)
  | [], key, val => [(key, [val])]
  | (k, vs) :: rest, key, val =>
    if k = key then (k, vs ++ [val]) :: rest else (k, vs) :: dictAppend rest key val

/-- The stock index handed to the allocators: material id to the lots of
that material, in the order the grouping loop appended them. -/
abbrev Stock := List (Int × List Lot)

namespace WarehouseService

/-- The for loop of WarehouseService.get_stock_distribution, app/services.py
lines 99 to 121. Lots with remainder at most zero are skipped; otherwise
min(remainder, remaining quantity) is drawn and a line is emitted; the loop
breaks as soon as the remaining quantity is at most zero, leaving the rest
of the lots untouched. Returns the emitted lines, the updated lots and the
final remaining quantity. -/
def allocate (name : String) : List Lot → ℚ → List AllocationLine × List Lot × ℚ
  | [], q => ([], [], q)
  | l :: rest, q =>
    if l.remainder ≤ 0 then
      let r := allocate name rest q
      (r.1, l :: r.2.1, r.2.2)
    else
      let tk := min l.remainder q
      let line : AllocationLine := ⟨some l.id, name, tk, some l.price⟩
      let l' : Lot := { l with remainder := l.remainder - tk }
      if q - tk ≤ 0 then
        ([line], l' :: rest, q - tk)
      else
        let r := allocate name rest (q - tk)
        (line :: r.1, l' :: r.2.1, r.2.2)

/-- WarehouseService.get_stock_distribution, app/services.py lines 74 to 132.
If the material id has no entry in the stock index, a single line with no
warehouse id and no price carries the full quantity; otherwise the loop runs
and a shortfall line is appended when quantity is left over. The updated
stock index is returned alongside, modelling the in-place mutation of the
lot objects held by the index. -/
def get_stock_distribution (stock : Stock) (material : Material) (quantity : ℚ) :
    List AllocationLine × Stock :=
  match dictGet stock material.id with
  | none => ([⟨none, material.name, quantity, none⟩], stock)
  | some lots =>
    let r := allocate material.name lots quantity
    ((if 0 < r.2.2 then r.1 ++ [⟨none, material.name, r.2.2, none⟩] else r.1),
     dictSet stock material.id r.2.1)

/-- WarehouseService.get_stock_for_materials, app/services.py lines 49 to 71.
The ORM query filters the warehouse rows to the requested material ids and
returns them ordered by ascending price; the loop then groups them by
material id, preserving that order inside each group. The stock_data
argument stands for the warehouse table rows in the order the query
returns them. -/
def get_stock_for_materials (stock_data : List Lot) (material_ids : List Int) : Stock :=
  (stock_data.filter (fun l => material_ids.contains l.material_id)).foldl
    (fun s r => dictAppend s r.material_id r) []

end WarehouseService

namespace ProductMaterialsAPIView

/-- The for loop of ProductMaterialsAPIView.get_stock_distribution,
api/views.py lines 116 to 135. Identical to the WarehouseService loop
except that it never breaks: iteration continues after the demand is
satisfied, drawing min(remainder, 0) = 0 from every later lot that still
has positive remainder. -/
def allocate (name : String) : List Lot → ℚ → List AllocationLine × List Lot × ℚ
  | [], q => ([], [], q)
  | l :: rest, q =>
    if l.remainder ≤ 0 then
      let r := allocate name rest q
      (r.1, l :: r.2.1, r.2.2)
    else
      let tk := min l.remainder q
      let r := allocate name rest (q - tk)
      (⟨some l.id, name, tk, some l.price⟩ :: r.1,
       { l with remainder := l.remainder - tk } :: r.2.1, r.2.2)

/-- ProductMaterialsAPIView.get_stock_distribution, api/views.py lines 93
to 146. Same shape as the WarehouseService version but built on the loop
without the break. -/
def get_stock_distribution (stock : Stock) (material : Material) (quantity : ℚ) :
    List AllocationLine × Stock :=
  match dictGet stock material.id with
  | none => ([⟨none, material.name, quantity, none⟩], stock)
  | some lots =>
    let r := allocate material.name lots quantity
    ((if 0 < r.2.2 then r.1 ++ [⟨none, material.name, r.2.2, none⟩] else r.1),
     dictSet stock material.id r.2.1)

/-- ProductMaterialsAPIView.get_required_materials, api/views.py lines 43
to 66: filter the ProductMaterial rows to the requested product ids,
multiply each per-unit quantity by the demanded product quantity, and group
the rows by material id. -/
def get_required_materials (rows : List ProductMaterial)
    (product_quantities : List (Int × ℚ)) : List (Int × List ProductMaterial) :=
  (rows.filter (fun r => (product_quantities.map Prod.fst).contains r.product_id)).foldl
    (fun acc r =>
      dictAppend acc r.material.id
        { r with quantity := r.quantity * ((dictGet product_quantities r.product_id).getD 0) })
    []

/-- ProductMaterialsAPIView.get_stock_for_materials, api/views.py lines 68
to 91: the warehouse rows are filtered to the material ids of the expanded
demand and grouped by material id, preserving the price-ascending order the
query returns them in. -/
def get_stock_for_materials (stock_data : List Lot)
    (pm : List (Int × List ProductMaterial)) : Stock :=
  (stock_data.filter (fun l => (pm.map Prod.fst).contains l.material_id)).foldl
    (fun s r => dictAppend s r.material_id r) []

/-- The inner loops of ProductMaterialsAPIView.post, api/views.py lines 174
to 186: for one product id, walk every group of the materials dict and, for
each row belonging to the product, call the allocator, extending the lines
and threading the mutated stock index. -/
def allocateForProduct (pm : List (Int × List ProductMaterial)) (pid : Int)
    (stock : Stock) : List AllocationLine × Stock :=
  pm.foldl
    (fun acc entry =>
      entry.2.foldl
        (fun acc2 r =>
          if r.product_id = pid then
            let out := get_stock_distribution acc2.2 r.material r.quantity
            (acc2.1 ++ out.1, out.2)
          else acc2)
        acc)
    ([], stock)

/-- The result loop of ProductMaterialsAPIView.post, api/views.py lines 163
to 194: iterate the product_quantities dict, silently skip ids missing from
the product reference map, and emit one ProductResult per remaining id. -/
def buildResults (productsMap : List Product) (pm : List (Int × List ProductMaterial)) :
    Stock → List (Int × ℚ) → List ProductResult
  | _, [] => []
  | stock, (pid, qty) :: rest =>
    match productsMap.find? (fun p => p.id == pid) with
    | none => buildResults productsMap pm stock rest
    | some p =>
      let out := allocateForProduct pm pid stock
      ⟨p.name, qty, out.1⟩ :: buildResults productsMap pm out.2 rest

/-- ProductMaterialsAPIView.post, api/views.py lines 148 to 203, after
validation: build the product_quantities dict (duplicate product ids
overwrite in place), look up the products, expand the demand, build the
stock index and assemble the results. The products, pmRows and stock_data
arguments stand for the database tables; stock_data is in the
price-ascending order the warehouse query returns. -/
def post (products : List Product) (pmRows : List ProductMaterial)
    (stock_data : List Lot) (input : List (Int × ℚ)) : List ProductResult :=
  let product_quantities := input.foldl (fun d e => dictUpsert d e.1 e.2) []
  let productsMap := products.filter (fun p => (input.map Prod.fst).contains p.id)
  let pm := get_required_materials pmRows product_quantities
  let stock := get_stock_for_materials stock_data pm
  buildResults productsMap pm stock product_quantities

end ProductMaterialsAPIView

/-- One allocation pass of the WarehouseService allocator: a sequence of
demand lines processed in order against one shared stock index; returns the
final index. -/
def svcPass : Stock → List (Material × ℚ) → Stock
  | stock, [] => stock
  | stock, (m, q) :: ds => svcPass (WarehouseService.get_stock_distribution stock m q).2 ds

/-- One allocation pass of the ProductMaterialsAPIView allocator. -/
def viewPass : Stock → List (Material × ℚ) → Stock
  | stock, [] => stock
  | stock, (m, q) :: ds => viewPass (ProductMaterialsAPIView.get_stock_distribution stock m q).2 ds

/-- The non-null prices, in emission order, of the lines produced for the
material with id mid by a WarehouseService allocation pass. -/
def passPricesFor (mid : Int) : Stock → List (Material × ℚ) → List ℚ
  | _, [] => []
  | stock, (m, q) :: ds =>
    let out := WarehouseService.get_stock_distribution stock m q
    (if m.id = mid then out.1.filterMap AllocationLine.price else []) ++
      passPricesFor mid out.2 ds

/-- Total quantity a list of lots can still supply: negative remainders
count as zero because the loops skip them. -/
def lotsAvail (lots : List Lot) : ℚ := (lots.map (fun l => max l.remainder 0)).sum

/-- Total quantity the stock index can still supply for a material id. -/
def stockAvail (stock : Stock) (mid : Int) : ℚ :=
  match dictGet stock mid with
  | none => 0
  | some lots => lotsAvail lots

/-- Prices of the lots that still have positive remainder, in list order. -/
def posPrices (lots : List Lot) : List ℚ :=
  lots.filterMap (fun l => if 0 < l.remainder then some l.price else none)

/-- How one lot may evolve during an allocation pass: identity fields and
price are unchanged, the remainder does not grow, and a nonnegative
remainder stays nonnegative. -/
def lotDec (a b : Lot) : Prop :=
  b.id = a.id ∧ b.material_id = a.material_id ∧ b.price = a.price ∧
    b.remainder ≤ a.remainder ∧ (0 ≤ a.remainder → 0 ≤ b.remainder)

/-- Pointwise extension of lotDec to the whole stock index: same keys, same
group shapes, every lot evolving by lotDec. -/
def stockDec (s s' : Stock) : Prop :=
  List.Forall₂ (fun e e' => e.1 = e'.1 ∧ List.Forall₂ lotDec e.2 e'.2) s s'

/-- JSON-like request payload values. Ints, floats and bools are kept apart
so that the isinstance checks of the source can be modelled; Python treats
bool as a subtype of int. -/
inductive JValue where
  | null : JValue
  | bool (b : Bool) : JValue
  | int (n : Int) : JValue
  | float (q : ℚ) : JValue
  | str (s : String) : JValue
  | list (xs : List JValue) : JValue
  | obj (fields : List (String × JValue)) : JValue

/-- Python truthiness of a payload value, as tested by the if-not checks. -/
def JValue.falsy : JValue → Bool
  | .null => true
  | .bool b => !b
  | .int n => n == 0
  | .float q => q == 0
  | .str s => s.data.isEmpty
  | .list xs => xs.isEmpty
  | .obj fs => fs.isEmpty

/-- isinstance(x, dict). -/
def JValue.isDict : JValue → Bool
  | .obj _ => true
  | _ => false

/-- Key membership test on a dict value; false on every other value. -/
def JValue.hasKey : JValue → String → Bool
  | .obj fs, k => fs.any (fun f => f.1 == k)
  | _, _ => false

/-- Subscript access on a dict value. -/
def JValue.getKey : JValue → String → Option JValue
  | .obj fs, k => (fs.find? (fun f => f.1 == k)).map Prod.snd
  | _, _ => none

/-- isinstance(x, int) in Python: Bool values also count as ints. -/
def JValue.isPyInt : JValue → Bool
  | .int _ => true
  | .bool _ => true
  | _ => false

/-- isinstance(x, (int, float)) in Python. -/
def JValue.isPyNumber : JValue → Bool
  | .int _ => true
  | .bool _ => true
  | .float _ => true
  | _ => false

/-- What a Python for loop yields on a payload value: list elements, dict
keys, or the characters of a string; none means the value is not iterable
and the loop raises a TypeError. -/
def JValue.iterElems : JValue → Option (List JValue)
  | .list xs => some xs
  | .obj fs => some (fs.map (fun f => .str f.1))
  | .str s => some (s.data.map (fun c => .str (String.mk [c])))
  | _ => none

/-- Errors a request handler can raise: a DRF ValidationError carrying a
message, or a bare TypeError from iterating a non-iterable value. -/
inductive PyErr where
  | validation (msg : String) : PyErr
  | typeErr : PyErr
deriving DecidableEq

namespace ProductMaterialsAPIView

/-- The entry loop of ProductMaterialsAPIView.validate_request, api/views.py
lines 36 to 41: every entry must be a dict carrying both the product and the
quantity key. No check is made on the types of the two values. -/
def validateEntries : List JValue → Except PyErr Unit
  | [] => .ok ()
  | p :: rest =>
    if !p.isDict then .error (.validation "Invalid product data.")
    else if !p.hasKey "product" || !p.hasKey "quantity" then
      .error (.validation "Request must include product and quantity.")
    else validateEntries rest

/-- ProductMaterialsAPIView.validate_request, api/views.py lines 15 to 41.
The source checks the same falsiness condition twice, on request.data and on
the products alias of it; both checks are kept. -/
def validate_request (data : JValue) : Except PyErr Unit :=
  if data.falsy then .error (.validation "No data provided.")
  else if data.falsy then .error (.validation "No products provided.")
  else
    match data.iterElems with
    | none => .error .typeErr
    | some products => validateEntries products

end ProductMaterialsAPIView

namespace ProductRequestValidator

/-- The entry loop of ProductRequestValidator.validate_product_request,
app/validators.py lines 27 to 38: dict check, key presence, integer product
id, numeric quantity. No lower bound is checked on the quantity. -/
def checkProducts : List JValue → Except PyErr Unit
  | [] => .ok ()
  | p :: rest =>
    if !p.isDict then .error (.validation "Invalid product data.")
    else if !p.hasKey "product" || !p.hasKey "quantity" then
      .error (.validation "Request must include product and quantity.")
    else if !((p.getKey "product").getD .null).isPyInt then
      .error (.validation "Product ID must be an integer.")
    else if !((p.getKey "quantity").getD .null).isPyNumber then
      .error (.validation "Quantity must be a number.")
    else checkProducts rest

/-- ProductRequestValidator.validate_product_request, app/validators.py
lines 10 to 38. The second guard of the source rejects non-lists and empty
lists with the same message, short-circuiting so that len is only taken on
an actual list. -/
def validate_product_request (data : JValue) : Except PyErr Unit :=
  if data.falsy then .error (.validation "No data provided.")
  else
    match data with
    | .list xs =>
      if xs.isEmpty then .error (.validation "No products provided.")
      else checkProducts xs
    | _ => .error (.validation "No products provided.")

end ProductRequestValidator

end Mfg

open Mfg

/-! Basic facts about the dict operations. -/

theorem dictGet_dictSet_self {α : Type} (s : List (Int × α)) (k : Int) (v w : α)
    (h : dictGet s k = some v) : dictGet (dictSet s k w) k = some w := by
  induction s with
  | nil => simp [dictGet] at h
  | cons e rest ih =>
    obtain ⟨a, b⟩ := e
    by_cases hk : a = k
    · subst hk
      simp [dictGet, dictSet]
    · simp only [dictGet, dictSet, if_neg hk] at h ⊢
      exact ih h

theorem dictGet_dictSet_ne {α : Type} (s : List (Int × α)) (k key : Int) (w : α)
    (h : k ≠ key) : dictGet (dictSet s k w) key = dictGet s key := by
  induction s with
  | nil => simp [dictGet, dictSet]
  | cons e rest ih =>
    obtain ⟨a, b⟩ := e
    by_cases hk : a = k
    · subst hk
      simp [dictGet, dictSet, if_neg h]
    · simp [dictGet, dictSet, if_neg hk, ih]

theorem dictGet_dictAppend_self {α : Type} (s : List (Int × List α)) (k : Int) (v : α) :
    dictGet (dictAppend s k v) k = some ((dictGet s k).getD [] ++ [v]) := by
  induction s with
  | nil => simp [dictGet, dictAppend]
  | cons e rest ih =>
    obtain ⟨a, b⟩ := e
    by_cases hk : a = k
    · subst hk
      simp [dictGet, dictAppend]
    · simp [dictGet, dictAppend, if_neg hk, ih]

theorem dictGet_dictAppend_ne {α : Type} (s : List (Int × List α)) (k key : Int) (v : α)
    (h : k ≠ key) : dictGet (dictAppend s k v) key = dictGet s key := by
  induction s with
  | nil => simp [dictGet, dictAppend, h]
  | cons e rest ih =>
    obtain ⟨a, b⟩ := e
    by_cases hk : a = k
    · subst hk
      simp [dictGet, dictAppend, if_neg h]
    · simp [dictGet, dictAppend, if_neg hk, ih]

theorem dictUpsert_dictUpsert {α : Type} (d : List (Int × α)) (k : Int) (a b : α) :
    dictUpsert (dictUpsert d k a) k b = dictUpsert d k b := by
  induction d with
  | nil => simp [dictUpsert]
  | cons e rest ih =>
    obtain ⟨x, y⟩ := e
    by_cases hk : x = k
    · subst hk
      simp [dictUpsert]
    · simp [dictUpsert, if_neg hk, ih]

/-! Facts about the WarehouseService allocation loop. -/

theorem lotsAvail_nonneg (lots : List Lot) : 0 ≤ lotsAvail lots := by
  refine List.sum_nonneg ?_
  intro x hx
  simp only [List.mem_map] at hx
  obtain ⟨l, _, rfl⟩ := hx
  exact le_max_right _ _

theorem ws_allocate_sum (n : String) : ∀ (lots : List Lot) (q : ℚ),
    ((Mfg.WarehouseService.allocate n lots q).1.map AllocationLine.qty).sum =
      q - (Mfg.WarehouseService.allocate n lots q).2.2
  | [], q => by simp [Mfg.WarehouseService.allocate]
  | l :: rest, q => by
    by_cases h : l.remainder ≤ 0
    · simp only [Mfg.WarehouseService.allocate, if_pos h]
      simpa using ws_allocate_sum n rest q
    · by_cases h2 : q - min l.remainder q ≤ 0
      · simp only [Mfg.WarehouseService.allocate, if_neg h, if_pos h2]
        simp
      · simp only [Mfg.WarehouseService.allocate, if_neg h, if_neg h2, List.map_cons,
          List.sum_cons]
        rw [ws_allocate_sum n rest (q - min l.remainder q)]
        ring

theorem ws_allocate_r_eq (n : String) : ∀ (lots : List Lot) (q : ℚ), 0 ≤ q →
    (Mfg.WarehouseService.allocate n lots q).2.2 = max (q - lotsAvail lots) 0
  | [], q, hq => by
    simp [Mfg.WarehouseService.allocate, lotsAvail, max_eq_left hq]
  | l :: rest, q, hq => by
    by_cases h : l.remainder ≤ 0
    · have hm : max l.remainder 0 = 0 := max_eq_right h
      simp only [Mfg.WarehouseService.allocate, if_pos h]
      rw [ws_allocate_r_eq n rest q hq]
      simp [lotsAvail, hm]
    · push_neg at h
      by_cases h2 : q - min l.remainder q ≤ 0
      · have hle : q ≤ l.remainder := by
          rcases le_total l.remainder q with h' | h'
          · rw [min_eq_left h'] at h2; linarith
          · exact h'
        have havail : q ≤ lotsAvail (l :: rest) := by
          have h1 : l.remainder ≤ max l.remainder 0 := le_max_left _ _
          have h3 : 0 ≤ lotsAvail rest := lotsAvail_nonneg rest
          have : lotsAvail (l :: rest) = max l.remainder 0 + lotsAvail rest := by
            simp [lotsAvail]
          linarith
        have hq2 : q - min l.remainder q = 0 := by
          have : min l.remainder q ≤ q := min_le_right _ _
          linarith
        simp only [Mfg.WarehouseService.allocate, if_neg (not_le.mpr h), if_pos h2]
        rw [hq2, eq_comm, max_eq_right]
        linarith
      · have htk : min l.remainder q = l.remainder := by
          rcases le_total l.remainder q with h' | h'
          · exact min_eq_left h'
          · exfalso; apply h2; rw [min_eq_right h']; linarith
        push_neg at h2
        simp only [Mfg.WarehouseService.allocate, if_neg (not_le.mpr h), if_neg (not_le.mpr h2)]
        rw [ws_allocate_r_eq n rest (q - min l.remainder q) (le_of_lt h2)]
        have : lotsAvail (l :: rest) = max l.remainder 0 + lotsAvail rest := by
          simp [lotsAvail]
        rw [this, htk, max_eq_left (le_of_lt h)]
        congr 1
        ring

theorem ws_allocate_mem (n : String) : ∀ (lots : List Lot) (q : ℚ),
    ∀ line ∈ (Mfg.WarehouseService.allocate n lots q).1,
      ∃ l ∈ lots, 0 < l.remainder ∧ line.warehouse_id = some l.id ∧
        line.price = some l.price
  | [], q => by simp [Mfg.WarehouseService.allocate]
  | l :: rest, q => by
    by_cases h : l.remainder ≤ 0
    · simp only [Mfg.WarehouseService.allocate, if_pos h]
      intro line hline
      obtain ⟨lt, hlt, hpos, hw, hp⟩ := ws_allocate_mem n rest q line hline
      exact ⟨lt, List.mem_cons_of_mem _ hlt, hpos, hw, hp⟩
    · push_neg at h
      by_cases h2 : q - min l.remainder q ≤ 0
      · simp only [Mfg.WarehouseService.allocate, if_neg (not_le.mpr h), if_pos h2]
        intro line hline
        simp only [List.mem_singleton] at hline
        subst hline
        exact ⟨l, List.mem_cons_self _ _, h, rfl, rfl⟩
      · simp only [Mfg.WarehouseService.allocate, if_neg (not_le.mpr h), if_neg h2]
        intro line hline
        rcases List.mem_cons.mp hline with hl | hl
        · subst hl
          exact ⟨l, List.mem_cons_self _ _, h, rfl, rfl⟩
        · obtain ⟨lt, hlt, hpos, hw, hp⟩ :=
            ws_allocate_mem n rest (q - min l.remainder q) line hl
          exact ⟨lt, List.mem_cons_of_mem _ hlt, hpos, hw, hp⟩

theorem ws_allocate_prices_map (n : String) : ∀ (lots : List Lot) (q : ℚ),
    (Mfg.WarehouseService.allocate n lots q).2.1.map Lot.price = lots.map Lot.price
  | [], q => by simp [Mfg.WarehouseService.allocate]
  | l :: rest, q => by
    by_cases h : l.remainder ≤ 0
    · simp only [Mfg.WarehouseService.allocate, if_pos h, List.map_cons]
      rw [ws_allocate_prices_map n rest q]
    · by_cases h2 : q - min l.remainder q ≤ 0
      · simp only [Mfg.WarehouseService.allocate, if_neg h, if_pos h2]
        simp
      · simp only [Mfg.WarehouseService.allocate, if_neg h, if_neg h2, List.map_cons]
        rw [ws_allocate_prices_map n rest (q - min l.remainder q)]

theorem posPrices_cons (l : Lot) (rest : List Lot) :
    posPrices (l :: rest) =
      if 0 < l.remainder then l.price :: posPrices rest else posPrices rest := by
  by_cases hc : 0 < l.remainder <;> simp [posPrices, List.filterMap_cons, hc]

theorem posPrices_mem (lots : List Lot) (p : ℚ) :
    p ∈ posPrices lots ↔ ∃ l ∈ lots, 0 < l.remainder ∧ l.price = p := by
  simp only [posPrices, List.mem_filterMap]
  constructor
  · rintro ⟨l, hl, hif⟩
    by_cases hc : 0 < l.remainder
    · rw [if_pos hc] at hif
      exact ⟨l, hl, hc, Option.some.inj hif⟩
    · rw [if_neg hc] at hif
      cases hif
  · rintro ⟨l, hl, hc, rfl⟩
    exact ⟨l, hl, by rw [if_pos hc]⟩

theorem posPrices_mem_cons {p : ℚ} (l : Lot) {rest : List Lot} (h : p ∈ posPrices rest) :
    p ∈ posPrices (l :: rest) := by
  rw [posPrices_cons]
  split_ifs
  · exact List.mem_cons_of_mem _ h
  · exact h

theorem ws_allocate_pos_sub (n : String) : ∀ (lots : List Lot) (q : ℚ),
    ∀ p ∈ posPrices (Mfg.WarehouseService.allocate n lots q).2.1, p ∈ posPrices lots
  | [], q => by simp [Mfg.WarehouseService.allocate]
  | l :: rest, q => by
    by_cases h : l.remainder ≤ 0
    · simp only [Mfg.WarehouseService.allocate, if_pos h]
      intro p hp
      rw [posPrices_cons, if_neg (not_lt.mpr h)] at hp
      exact posPrices_mem_cons l (ws_allocate_pos_sub n rest q p hp)
    · push_neg at h
      by_cases h2 : q - min l.remainder q ≤ 0
      · simp only [Mfg.WarehouseService.allocate, if_neg (not_le.mpr h), if_pos h2]
        intro p hp
        rw [posPrices_cons] at hp
        split_ifs at hp with hc
        · rcases List.mem_cons.mp hp with rfl | hp'
          · rw [posPrices_cons, if_pos h]
            exact List.mem_cons_self _ _
          · exact posPrices_mem_cons l hp'
        · exact posPrices_mem_cons l hp
      · have htk : min l.remainder q = l.remainder := by
          rcases le_total l.remainder q with h' | h'
          · exact min_eq_left h'
          · exfalso; apply h2; rw [min_eq_right h']; linarith
        simp only [Mfg.WarehouseService.allocate, if_neg (not_le.mpr h), if_neg h2]
        intro p hp
        rw [posPrices_cons] at hp
        have hz : ¬ (0 < l.remainder - min l.remainder q) := by rw [htk]; simp
        rw [if_neg hz] at hp
        exact posPrices_mem_cons l (ws_allocate_pos_sub n rest (q - min l.remainder q) p hp)

theorem ws_allocate_sorted (n : String) : ∀ (lots : List Lot) (q : ℚ),
    lots.Pairwise (fun a b => a.price ≤ b.price) →
    ((Mfg.WarehouseService.allocate n lots q).1.filterMap AllocationLine.price).Pairwise
      (· ≤ ·)
  | [], q, _ => by simp [Mfg.WarehouseService.allocate]
  | l :: rest, q, hs => by
    obtain ⟨hhead, htail⟩ := List.pairwise_cons.mp hs
    by_cases h : l.remainder ≤ 0
    · simp only [Mfg.WarehouseService.allocate, if_pos h]
      exact ws_allocate_sorted n rest q htail
    · by_cases h2 : q - min l.remainder q ≤ 0
      · simp only [Mfg.WarehouseService.allocate, if_neg h, if_pos h2]
        simp
      · simp only [Mfg.WarehouseService.allocate, if_neg h, if_neg h2, List.filterMap_cons]
        refine List.Pairwise.cons ?_ (ws_allocate_sorted n rest (q - min l.remainder q) htail)
        intro p hp
        obtain ⟨line, hline, hlp⟩ := List.mem_filterMap.mp hp
        obtain ⟨lt, hlt, _, _, hpr⟩ :=
          ws_allocate_mem n rest (q - min l.remainder q) line hline
        rw [hpr] at hlp
        rw [← Option.some.inj hlp]
        exact hhead lt hlt

theorem ws_allocate_le_pos (n : String) : ∀ (lots : List Lot) (q : ℚ),
    lots.Pairwise (fun a b => a.price ≤ b.price) →
    ∀ p ∈ (Mfg.WarehouseService.allocate n lots q).1.filterMap AllocationLine.price,
      ∀ p' ∈ posPrices (Mfg.WarehouseService.allocate n lots q).2.1, p ≤ p'
  | [], q, _ => by simp [Mfg.WarehouseService.allocate]
  | l :: rest, q, hs => by
    obtain ⟨hhead, htail⟩ := List.pairwise_cons.mp hs
    by_cases h : l.remainder ≤ 0
    · simp only [Mfg.WarehouseService.allocate, if_pos h]
      intro p hp p' hp'
      rw [posPrices_cons, if_neg (not_lt.mpr h)] at hp'
      exact ws_allocate_le_pos n rest q htail p hp p' hp'
    · push_neg at h
      by_cases h2 : q - min l.remainder q ≤ 0
      · simp only [Mfg.WarehouseService.allocate, if_neg (not_le.mpr h), if_pos h2]
        intro p hp p' hp'
        simp only [List.filterMap_cons, List.filterMap_nil] at hp
        simp only [List.mem_singleton] at hp
        subst hp
        rw [posPrices_cons] at hp'
        split_ifs at hp' with hc
        · rcases List.mem_cons.mp hp' with rfl | hp''
          · exact le_refl _
          · obtain ⟨lt, hlt, _, rfl⟩ := (posPrices_mem rest p').mp hp''
            exact hhead lt hlt
        · obtain ⟨lt, hlt, _, rfl⟩ := (posPrices_mem rest p').mp hp'
          exact hhead lt hlt
      · have htk : min l.remainder q = l.remainder := by
          rcases le_total l.remainder q with h' | h'
          · exact min_eq_left h'
          · exfalso; apply h2; rw [min_eq_right h']; linarith
        simp only [Mfg.WarehouseService.allocate, if_neg (not_le.mpr h), if_neg h2,
          List.filterMap_cons]
        intro p hp p' hp'
        rw [posPrices_cons] at hp'
        have hz : ¬ (0 < l.remainder - min l.remainder q) := by rw [htk]; simp
        rw [if_neg hz] at hp'
        rcases List.mem_cons.mp hp with rfl | hp2
        · have hp'' := ws_allocate_pos_sub n rest (q - min l.remainder q) p' hp'
          obtain ⟨lt, hlt, _, rfl⟩ := (posPrices_mem rest p').mp hp''
          exact hhead lt hlt
        · exact ws_allocate_le_pos n rest (q - min l.remainder q) htail p hp2 p' hp'

theorem lotDec_refl (l : Lot) : lotDec l l := ⟨rfl, rfl, rfl, le_refl _, fun h => h⟩

theorem forall₂_lotDec_refl (lots : List Lot) : List.Forall₂ lotDec lots lots :=
  List.forall₂_same.mpr (fun x _ => lotDec_refl x)

theorem ws_allocate_dec (n : String) : ∀ (lots : List Lot) (q : ℚ), 0 ≤ q →
    List.Forall₂ lotDec lots (Mfg.WarehouseService.allocate n lots q).2.1
  | [], q, _ => by simp [Mfg.WarehouseService.allocate]
  | l :: rest, q, hq => by
    by_cases h : l.remainder ≤ 0
    · simp only [Mfg.WarehouseService.allocate, if_pos h]
      exact List.Forall₂.cons (lotDec_refl l) (ws_allocate_dec n rest q hq)
    · push_neg at h
      have htk0 : 0 ≤ min l.remainder q := le_min (le_of_lt h) hq
      have htkr : min l.remainder q ≤ l.remainder := min_le_left _ _
      have hdec : lotDec l { l with remainder := l.remainder - min l.remainder q } := by
        refine ⟨rfl, rfl, rfl, ?_, ?_⟩
        · show l.remainder - min l.remainder q ≤ l.remainder
          linarith
        · intro h0
          show (0 : ℚ) ≤ l.remainder - min l.remainder q
          linarith
      by_cases h2 : q - min l.remainder q ≤ 0
      · simp only [Mfg.WarehouseService.allocate, if_neg (not_le.mpr h), if_pos h2]
        exact List.Forall₂.cons hdec (forall₂_lotDec_refl rest)
      · push_neg at h2
        simp only [Mfg.WarehouseService.allocate, if_neg (not_le.mpr h),
          if_neg (not_le.mpr h2)]
        exact List.Forall₂.cons hdec
          (ws_allocate_dec n rest (q - min l.remainder q) (le_of_lt h2))

theorem ws_allocate_pos_qty (n : String) : ∀ (lots : List Lot) (q : ℚ), 0 < q →
    ∀ line ∈ (Mfg.WarehouseService.allocate n lots q).1, 0 < line.qty
  | [], q, _ => by simp [Mfg.WarehouseService.allocate]
  | l :: rest, q, hq => by
    by_cases h : l.remainder ≤ 0
    · simp only [Mfg.WarehouseService.allocate, if_pos h]
      exact ws_allocate_pos_qty n rest q hq
    · push_neg at h
      have htk : 0 < min l.remainder q := lt_min h hq
      by_cases h2 : q - min l.remainder q ≤ 0
      · simp only [Mfg.WarehouseService.allocate, if_neg (not_le.mpr h), if_pos h2]
        intro line hline
        simp only [List.mem_singleton] at hline
        subst hline
        exact htk
      · push_neg at h2
        simp only [Mfg.WarehouseService.allocate, if_neg (not_le.mpr h),
          if_neg (not_le.mpr h2)]
        intro line hline
        rcases List.mem_cons.mp hline with rfl | hl
        · exact htk
        · exact ws_allocate_pos_qty n rest (q - min l.remainder q) h2 line hl

theorem ws_allocate_untouched (n : String) : ∀ (lots : List Lot) (q : ℚ),
    ∃ k, (Mfg.WarehouseService.allocate n lots q).2.1.drop k = lots.drop k ∧
      ∀ line ∈ (Mfg.WarehouseService.allocate n lots q).1,
        ∃ l ∈ lots.take k, line.warehouse_id = some l.id
  | [], q => ⟨0, by simp [Mfg.WarehouseService.allocate]⟩
  | l :: rest, q => by
    by_cases h : l.remainder ≤ 0
    · obtain ⟨k, hdrop, hmem⟩ := ws_allocate_untouched n rest q
      refine ⟨k + 1, ?_, ?_⟩
      · simp only [Mfg.WarehouseService.allocate, if_pos h, List.drop_succ_cons]
        exact hdrop
      · simp only [Mfg.WarehouseService.allocate, if_pos h, List.take_succ_cons]
        intro line hline
        obtain ⟨lt, hlt, hw⟩ := hmem line hline
        exact ⟨lt, List.mem_cons_of_mem _ hlt, hw⟩
    · by_cases h2 : q - min l.remainder q ≤ 0
      · refine ⟨1, ?_, ?_⟩
        · simp only [Mfg.WarehouseService.allocate, if_neg h, if_pos h2]
          simp
        · simp only [Mfg.WarehouseService.allocate, if_neg h, if_pos h2]
          intro line hline
          simp only [List.mem_singleton] at hline
          subst hline
          exact ⟨l, by simp, rfl⟩
      · obtain ⟨k, hdrop, hmem⟩ := ws_allocate_untouched n rest (q - min l.remainder q)
        refine ⟨k + 1, ?_, ?_⟩
        · simp only [Mfg.WarehouseService.allocate, if_neg h, if_neg h2, List.drop_succ_cons]
          exact hdrop
        · simp only [Mfg.WarehouseService.allocate, if_neg h, if_neg h2, List.take_succ_cons]
          intro line hline
          rcases List.mem_cons.mp hline with rfl | hl
          · exact ⟨l, List.mem_cons_self _ _, rfl⟩
          · obtain ⟨lt, hlt, hw⟩ := hmem line hl
            exact ⟨lt, List.mem_cons_of_mem _ hlt, hw⟩

/-! Facts about the ProductMaterialsAPIView allocation loop, mostly through
its relation to the WarehouseService loop. -/

theorem view_allocate_zero (n : String) : ∀ (lots : List Lot),
    ∃ zs, Mfg.ProductMaterialsAPIView.allocate n lots 0 = (zs, lots, 0) ∧
      ∀ z ∈ zs, z.qty = 0 ∧ z.warehouse_id ≠ none ∧ z.price ≠ none
  | [] => ⟨[], by simp [Mfg.ProductMaterialsAPIView.allocate], by simp⟩
  | l :: rest => by
    obtain ⟨zs, heq, hz⟩ := view_allocate_zero n rest
    by_cases h : l.remainder ≤ 0
    · refine ⟨zs, ?_, hz⟩
      simp only [Mfg.ProductMaterialsAPIView.allocate, if_pos h, heq]
    · push_neg at h
      have hmin : min l.remainder 0 = 0 := min_eq_right (le_of_lt h)
      refine ⟨⟨some l.id, n, 0, some l.price⟩ :: zs, ?_, ?_⟩
      · simp only [Mfg.ProductMaterialsAPIView.allocate, if_neg (not_le.mpr h), hmin,
          sub_zero, heq]
      · intro z hz2
        rcases List.mem_cons.mp hz2 with rfl | hz2
        · exact ⟨rfl, by simp, by simp⟩
        · exact hz z hz2

theorem view_allocate_eq_svc (n : String) : ∀ (lots : List Lot) (q : ℚ),
    ∃ zs, Mfg.ProductMaterialsAPIView.allocate n lots q =
        ((Mfg.WarehouseService.allocate n lots q).1 ++ zs,
         (Mfg.WarehouseService.allocate n lots q).2.1,
         (Mfg.WarehouseService.allocate n lots q).2.2) ∧
      (∀ z ∈ zs, z.qty = 0 ∧ z.warehouse_id ≠ none ∧ z.price ≠ none) ∧
      (0 < (Mfg.WarehouseService.allocate n lots q).2.2 → zs = [])
  | [], q => ⟨[], by simp [Mfg.ProductMaterialsAPIView.allocate,
      Mfg.WarehouseService.allocate], by simp, fun _ => rfl⟩
  | l :: rest, q => by
    by_cases h : l.remainder ≤ 0
    · obtain ⟨zs, heq, hz, hr⟩ := view_allocate_eq_svc n rest q
      refine ⟨zs, ?_, hz, ?_⟩
      · simp only [Mfg.ProductMaterialsAPIView.allocate, Mfg.WarehouseService.allocate,
          if_pos h, heq]
      · simp only [Mfg.WarehouseService.allocate, if_pos h]
        exact hr
    · by_cases h2 : q - min l.remainder q ≤ 0
      · have h0 : q - min l.remainder q = 0 :=
          le_antisymm h2 (sub_nonneg.mpr (min_le_right _ _))
        obtain ⟨zs, heq, hz⟩ := view_allocate_zero n rest
        refine ⟨zs, ?_, hz, ?_⟩
        · simp only [Mfg.ProductMaterialsAPIView.allocate, Mfg.WarehouseService.allocate,
            if_neg h, if_pos h2, h0, heq]
          simp
        · simp only [Mfg.WarehouseService.allocate, if_neg h, if_pos h2, h0]
          intro hlt
          exact absurd hlt (lt_irrefl 0)
      · obtain ⟨zs, heq, hz, hr⟩ := view_allocate_eq_svc n rest (q - min l.remainder q)
        refine ⟨zs, ?_, hz, ?_⟩
        · simp only [Mfg.ProductMaterialsAPIView.allocate, Mfg.WarehouseService.allocate,
            if_neg h, if_neg h2, heq]
          simp
        · simp only [Mfg.WarehouseService.allocate, if_neg h, if_neg h2]
          exact hr

/-- The two get_stock_distribution methods, related: same final stock index,
and the views output is the services output followed by zero-quantity lines
carrying real lot ids. -/
theorem view_dist_eq_svc_aux (stock : Stock) (m : Material) (q : ℚ) :
    (Mfg.ProductMaterialsAPIView.get_stock_distribution stock m q).2 =
      (Mfg.WarehouseService.get_stock_distribution stock m q).2 ∧
    ∃ ws, (Mfg.ProductMaterialsAPIView.get_stock_distribution stock m q).1 =
        (Mfg.WarehouseService.get_stock_distribution stock m q).1 ++ ws ∧
      (∀ w ∈ ws, w.qty = 0 ∧ w.warehouse_id ≠ none) ∧
      ((∃ line ∈ (Mfg.WarehouseService.get_stock_distribution stock m q).1,
          line.warehouse_id = none) → ws = []) := by
  rcases hget : dictGet stock m.id with _ | lots
  · refine ⟨?_, [], ?_, by simp, fun _ => rfl⟩ <;>
      simp [Mfg.ProductMaterialsAPIView.get_stock_distribution,
        Mfg.WarehouseService.get_stock_distribution, hget]
  · obtain ⟨zs, heq, hz, hr⟩ := view_allocate_eq_svc m.name lots q
    by_cases hpos : 0 < (Mfg.WarehouseService.allocate m.name lots q).2.2
    · refine ⟨?_, [], ?_, by simp, fun _ => rfl⟩
      · simp [Mfg.ProductMaterialsAPIView.get_stock_distribution,
          Mfg.WarehouseService.get_stock_distribution, hget, heq]
      · simp only [Mfg.ProductMaterialsAPIView.get_stock_distribution,
          Mfg.WarehouseService.get_stock_distribution, hget, heq, hr hpos,
          if_pos hpos, List.append_nil]
    · refine ⟨?_, zs, ?_, fun w hw => ⟨(hz w hw).1, (hz w hw).2.1⟩, ?_⟩
      · simp [Mfg.ProductMaterialsAPIView.get_stock_distribution,
          Mfg.WarehouseService.get_stock_distribution, hget, heq]
      · simp only [Mfg.ProductMaterialsAPIView.get_stock_distribution,
          Mfg.WarehouseService.get_stock_distribution, hget, heq, if_neg hpos]
      · rintro ⟨line, hline, hnull⟩
        exfalso
        simp only [Mfg.WarehouseService.get_stock_distribution, hget,
          if_neg hpos] at hline
        obtain ⟨lt, _, _, hw, _⟩ := ws_allocate_mem m.name lots q line hline
        rw [hw] at hnull
        cases hnull

/-! The stockDec relation and its preservation by the allocators. -/

theorem lotDec_trans {a b c : Lot} (h1 : lotDec a b) (h2 : lotDec b c) : lotDec a c := by
  obtain ⟨i1, m1, p1, r1, n1⟩ := h1
  obtain ⟨i2, m2, p2, r2, n2⟩ := h2
  exact ⟨i2.trans i1, m2.trans m1, p2.trans p1, r2.trans r1, fun h => n2 (n1 h)⟩

theorem forall₂_lotDec_trans : ∀ {l1 l2 l3 : List Lot},
    List.Forall₂ lotDec l1 l2 → List.Forall₂ lotDec l2 l3 → List.Forall₂ lotDec l1 l3
  | _, _, _, List.Forall₂.nil, List.Forall₂.nil => List.Forall₂.nil
  | _, _, _, List.Forall₂.cons h1 t1, List.Forall₂.cons h2 t2 =>
    List.Forall₂.cons (lotDec_trans h1 h2) (forall₂_lotDec_trans t1 t2)

theorem stockDec_refl (s : Stock) : stockDec s s :=
  List.forall₂_same.mpr (fun e _ => ⟨rfl, forall₂_lotDec_refl e.2⟩)

theorem stockDec_trans : ∀ {s1 s2 s3 : Stock},
    stockDec s1 s2 → stockDec s2 s3 → stockDec s1 s3
  | _, _, _, List.Forall₂.nil, List.Forall₂.nil => List.Forall₂.nil
  | _, _, _, List.Forall₂.cons h1 t1, List.Forall₂.cons h2 t2 =>
    List.Forall₂.cons ⟨h1.1.trans h2.1, forall₂_lotDec_trans h1.2 h2.2⟩
      (stockDec_trans t1 t2)

theorem stockDec_set : ∀ (s : Stock) (mid : Int) (lots lots' : List Lot),
    dictGet s mid = some lots → List.Forall₂ lotDec lots lots' →
    stockDec s (dictSet s mid lots')
  | [], mid, lots, lots', h, _ => by simp [dictGet] at h
  | e :: rest, mid, lots, lots', h, hF => by
    obtain ⟨k, vs⟩ := e
    by_cases hk : k = mid
    · subst hk
      simp only [dictGet, eq_self_iff_true, if_true, Option.some.injEq] at h
      subst h
      simp only [dictSet, eq_self_iff_true, if_true]
      exact List.Forall₂.cons ⟨rfl, hF⟩ (stockDec_refl rest)
    · simp only [dictGet, if_neg hk] at h
      simp only [dictSet, if_neg hk]
      exact List.Forall₂.cons ⟨rfl, forall₂_lotDec_refl vs⟩
        (stockDec_set rest mid lots lots' h hF)

theorem ws_dist_dec (stock : Stock) (m : Material) (q : ℚ) (hq : 0 ≤ q) :
    stockDec stock (Mfg.WarehouseService.get_stock_distribution stock m q).2 := by
  rcases hget : dictGet stock m.id with _ | lots
  · simp only [Mfg.WarehouseService.get_stock_distribution, hget]
    exact stockDec_refl stock
  · simp only [Mfg.WarehouseService.get_stock_distribution, hget]
    exact stockDec_set stock m.id lots _ hget (ws_allocate_dec m.name lots q hq)

theorem view_dist_dec (stock : Stock) (m : Material) (q : ℚ) (hq : 0 ≤ q) :
    stockDec stock (Mfg.ProductMaterialsAPIView.get_stock_distribution stock m q).2 := by
  rw [(view_dist_eq_svc_aux stock m q).1]
  exact ws_dist_dec stock m q hq

theorem svcPass_dec : ∀ (ds : List (Material × ℚ)) (stock : Stock),
    (∀ d ∈ ds, 0 < d.2) → stockDec stock (svcPass stock ds)
  | [], stock, _ => stockDec_refl stock
  | (m, q) :: ds, stock, h => by
    have h1 := ws_dist_dec stock m q (le_of_lt (h (m, q) (List.mem_cons_self _ _)))
    have h2 := svcPass_dec ds (Mfg.WarehouseService.get_stock_distribution stock m q).2
      (fun d hd => h d (List.mem_cons_of_mem _ hd))
    exact stockDec_trans h1 h2

theorem viewPass_dec : ∀ (ds : List (Material × ℚ)) (stock : Stock),
    (∀ d ∈ ds, 0 < d.2) → stockDec stock (viewPass stock ds)
  | [], stock, _ => stockDec_refl stock
  | (m, q) :: ds, stock, h => by
    have h1 := view_dist_dec stock m q (le_of_lt (h (m, q) (List.mem_cons_self _ _)))
    have h2 := viewPass_dec ds (Mfg.ProductMaterialsAPIView.get_stock_distribution stock m q).2
      (fun d hd => h d (List.mem_cons_of_mem _ hd))
    exact stockDec_trans h1 h2

/-! The grouping fold of the stock indexer, characterized. -/

theorem dictGet_groupFold {α : Type} (key : α → Int) :
    ∀ (rows : List α) (acc : List (Int × List α)) (mid : Int),
    (∀ vs, dictGet acc mid = some vs →
      dictGet (rows.foldl (fun s r => dictAppend s (key r) r) acc) mid =
        some (vs ++ rows.filter (fun r => key r = mid))) ∧
    (dictGet acc mid = none →
      dictGet (rows.foldl (fun s r => dictAppend s (key r) r) acc) mid =
        if (rows.filter (fun r => key r = mid)).isEmpty then none
        else some (rows.filter (fun r => key r = mid)))
  | [], acc, mid => by
    constructor
    · intro vs hvs
      simpa using hvs
    · intro hnone
      simpa using hnone
  | r :: rows, acc, mid => by
    by_cases hk : key r = mid
    · have h1 : dictGet (dictAppend acc (key r) r) mid =
          some ((dictGet acc mid).getD [] ++ [r]) := by
        rw [← hk]
        exact dictGet_dictAppend_self acc (key r) r
      constructor
      · intro vs hvs
        rw [hvs] at h1
        simp only [Option.getD_some] at h1
        have h2 := (dictGet_groupFold key rows (dictAppend acc (key r) r) mid).1 _ h1
        rw [List.foldl_cons, h2]
        simp [List.filter_cons, hk]
      · intro hnone
        rw [hnone] at h1
        simp only [Option.getD_none, List.nil_append] at h1
        have h2 := (dictGet_groupFold key rows (dictAppend acc (key r) r) mid).1 _ h1
        rw [List.foldl_cons, h2]
        simp [List.filter_cons, hk]
    · have h1 : dictGet (dictAppend acc (key r) r) mid = dictGet acc mid :=
        dictGet_dictAppend_ne acc (key r) mid r hk
      constructor
      · intro vs hvs
        rw [← h1] at hvs
        have h2 := (dictGet_groupFold key rows (dictAppend acc (key r) r) mid).1 _ hvs
        rw [List.foldl_cons, h2]
        simp [List.filter_cons, hk]
      · intro hnone
        rw [← h1] at hnone
        have h2 := (dictGet_groupFold key rows (dictAppend acc (key r) r) mid).2 hnone
        rw [List.foldl_cons, h2]
        simp [List.filter_cons, hk]

/-- Every group the WarehouseService stock indexer produces is exactly the
price-ordered query rows of that material. -/
theorem ws_stock_groups (stock_data : List Lot) (material_ids : List Int) (mid : Int)
    (lots : List Lot)
    (h : dictGet (Mfg.WarehouseService.get_stock_for_materials stock_data material_ids) mid =
      some lots) :
    lots = (stock_data.filter (fun l => material_ids.contains l.material_id)).filter
      (fun l => l.material_id = mid) := by
  have hch := (dictGet_groupFold Lot.material_id
    (stock_data.filter (fun l => material_ids.contains l.material_id)) [] mid).2
    (by simp [dictGet])
  rw [Mfg.WarehouseService.get_stock_for_materials, hch] at h
  split_ifs at h
  all_goals simp_all

/-! Price facts at the level of get_stock_distribution. -/

theorem ws_dist_none (stock : Stock) (m : Material) (q : ℚ)
    (hget : dictGet stock m.id = none) :
    Mfg.WarehouseService.get_stock_distribution stock m q =
      ([⟨none, m.name, q, none⟩], stock) := by
  simp [Mfg.WarehouseService.get_stock_distribution, hget]

theorem view_dist_none (stock : Stock) (m : Material) (q : ℚ)
    (hget : dictGet stock m.id = none) :
    Mfg.ProductMaterialsAPIView.get_stock_distribution stock m q =
      ([⟨none, m.name, q, none⟩], stock) := by
  simp [Mfg.ProductMaterialsAPIView.get_stock_distribution, hget]

theorem ws_dist_prices (stock : Stock) (m : Material) (q : ℚ) (lots : List Lot)
    (hget : dictGet stock m.id = some lots) :
    (Mfg.WarehouseService.get_stock_distribution stock m q).1.filterMap
        AllocationLine.price =
      (Mfg.WarehouseService.allocate m.name lots q).1.filterMap AllocationLine.price := by
  simp only [Mfg.WarehouseService.get_stock_distribution, hget]
  split_ifs
  · simp [List.filterMap_append]
  · rfl

theorem ws_dist_stock (stock : Stock) (m : Material) (q : ℚ) (lots : List Lot)
    (hget : dictGet stock m.id = some lots) :
    (Mfg.WarehouseService.get_stock_distribution stock m q).2 =
      dictSet stock m.id (Mfg.WarehouseService.allocate m.name lots q).2.1 := by
  simp only [Mfg.WarehouseService.get_stock_distribution, hget]

theorem ws_allocate_prices_pos (n : String) (lots : List Lot) (q : ℚ) :
    ∀ p ∈ (Mfg.WarehouseService.allocate n lots q).1.filterMap AllocationLine.price,
      p ∈ posPrices lots := by
  intro p hp
  obtain ⟨line, hline, hlp⟩ := List.mem_filterMap.mp hp
  obtain ⟨lt, hlt, hpos, _, hpr⟩ := ws_allocate_mem n lots q line hline
  rw [hpr] at hlp
  exact (posPrices_mem lots p).mpr ⟨lt, hlt, hpos, Option.some.inj hlp⟩

/-! Sortedness of the emitted prices across a whole allocation pass. -/

theorem passPrices_sorted_aux (mid : Int) :
    ∀ (ds : List (Material × ℚ)) (stock : Stock) (acc : List ℚ),
    ((dictGet stock mid).getD []).Pairwise (fun a b => a.price ≤ b.price) →
    acc.Pairwise (· ≤ ·) →
    (∀ a ∈ acc, ∀ p ∈ posPrices ((dictGet stock mid).getD []), a ≤ p) →
    (acc ++ passPricesFor mid stock ds).Pairwise (· ≤ ·)
  | [], _, acc, _, hacc, _ => by simpa [passPricesFor] using hacc
  | (m, q) :: ds, stock, acc, hsorted, hacc, hbound => by
    by_cases hmid : m.id = mid
    · rcases hget : dictGet stock m.id with _ | lots
      · have hstep := ws_dist_none stock m q hget
        simp only [passPricesFor, hstep, if_pos hmid]
        have := passPrices_sorted_aux mid ds stock acc hsorted hacc hbound
        simpa using this
      · have hget' : dictGet stock mid = some lots := by rw [← hmid]; exact hget
        have hlots : ((dictGet stock mid).getD []) = lots := by rw [hget']; rfl
        rw [hlots] at hsorted hbound
        have hnp_sorted :
            ((Mfg.WarehouseService.allocate m.name lots q).1.filterMap
              AllocationLine.price).Pairwise (· ≤ ·) :=
          ws_allocate_sorted m.name lots q hsorted
        have hnp_pos := ws_allocate_prices_pos m.name lots q
        have hnp_le := ws_allocate_le_pos m.name lots q hsorted
        have hsub := ws_allocate_pos_sub m.name lots q
        have hnewget :
            dictGet (Mfg.WarehouseService.get_stock_distribution stock m q).2 mid =
              some (Mfg.WarehouseService.allocate m.name lots q).2.1 := by
          rw [ws_dist_stock stock m q lots hget, ← hmid]
          exact dictGet_dictSet_self stock m.id lots _ hget
        have hnewlots :
            ((dictGet (Mfg.WarehouseService.get_stock_distribution stock m q).2 mid).getD [])
              = (Mfg.WarehouseService.allocate m.name lots q).2.1 := by
          rw [hnewget]; rfl
        have hsorted' :
            ((dictGet (Mfg.WarehouseService.get_stock_distribution stock m q).2 mid).getD
              []).Pairwise (fun a b => a.price ≤ b.price) := by
          rw [hnewlots]
          rw [← List.pairwise_map (f := Lot.price)] at hsorted ⊢
          rw [ws_allocate_prices_map m.name lots q]
          exact hsorted
        have hacc' :
            (acc ++ (Mfg.WarehouseService.allocate m.name lots q).1.filterMap
              AllocationLine.price).Pairwise (· ≤ ·) := by
          rw [List.pairwise_append]
          exact ⟨hacc, hnp_sorted, fun a ha p hp => hbound a ha p (hnp_pos p hp)⟩
        have hbound' : ∀ a ∈ acc ++ (Mfg.WarehouseService.allocate m.name lots q).1.filterMap
            AllocationLine.price,
            ∀ p ∈ posPrices ((dictGet
              (Mfg.WarehouseService.get_stock_distribution stock m q).2 mid).getD []),
              a ≤ p := by
          intro a ha p hp
          rw [hnewlots] at hp
          rcases List.mem_append.mp ha with ha' | ha'
          · exact hbound a ha' p (hsub p hp)
          · exact hnp_le a ha' p hp
        have hrec := passPrices_sorted_aux mid ds
          (Mfg.WarehouseService.get_stock_distribution stock m q).2
          (acc ++ (Mfg.WarehouseService.allocate m.name lots q).1.filterMap
            AllocationLine.price)
          hsorted' hacc' hbound'
        simp only [passPricesFor, if_pos hmid]
        rw [ws_dist_prices stock m q lots hget, ← List.append_assoc]
        exact hrec
    · rcases hget : dictGet stock m.id with _ | lots
      · have hstep := ws_dist_none stock m q hget
        simp only [passPricesFor, hstep, if_neg hmid]
        have := passPrices_sorted_aux mid ds stock acc hsorted hacc hbound
        simpa using this
      · have hne : dictGet (Mfg.WarehouseService.get_stock_distribution stock m q).2 mid =
            dictGet stock mid := by
          rw [ws_dist_stock stock m q lots hget]
          exact dictGet_dictSet_ne stock m.id mid _ hmid
        have hrec := passPrices_sorted_aux mid ds
          (Mfg.WarehouseService.get_stock_distribution stock m q).2 acc
          (by rw [hne]; exact hsorted) hacc (by rw [hne]; exact hbound)
        simp only [passPricesFor, if_neg hmid]
        simpa using hrec

/-! Conservation and shortfall shape at the level of the two
get_stock_distribution methods. -/

theorem ws_dist_sum (stock : Stock) (m : Material) (q : ℚ) (hq : 0 ≤ q) :
    ((Mfg.WarehouseService.get_stock_distribution stock m q).1.map
      AllocationLine.qty).sum = q := by
  rcases hget : dictGet stock m.id with _ | lots
  · simp [ws_dist_none stock m q hget]
  · have hr := ws_allocate_r_eq m.name lots q hq
    have hr0 : 0 ≤ (Mfg.WarehouseService.allocate m.name lots q).2.2 := by
      rw [hr]; exact le_max_right _ _
    have hsum := ws_allocate_sum m.name lots q
    simp only [Mfg.WarehouseService.get_stock_distribution, hget]
    split_ifs with hpos
    · simp only [List.map_append, List.sum_append, hsum, List.map_cons, List.map_nil,
        List.sum_cons, List.sum_nil, add_zero]
      ring
    · push_neg at hpos
      have h0 : (Mfg.WarehouseService.allocate m.name lots q).2.2 = 0 :=
        le_antisymm hpos hr0
      rw [hsum, h0, sub_zero]

theorem view_dist_sum (stock : Stock) (m : Material) (q : ℚ) (hq : 0 ≤ q) :
    ((Mfg.ProductMaterialsAPIView.get_stock_distribution stock m q).1.map
      AllocationLine.qty).sum = q := by
  obtain ⟨_, ws, hlines, hws, _⟩ := view_dist_eq_svc_aux stock m q
  rw [hlines]
  simp only [List.map_append, List.sum_append]
  rw [ws_dist_sum stock m q hq]
  have hzero : (ws.map AllocationLine.qty).sum = 0 := by
    apply List.sum_eq_zero
    intro x hx
    obtain ⟨w, hw, rfl⟩ := List.mem_map.mp hx
    exact (hws w hw).1
  rw [hzero, add_zero]

theorem ws_dist_c5_aux (stock : Stock) (m : Material) (q : ℚ) (hq : 0 < q) :
    (∀ line ∈ (Mfg.WarehouseService.get_stock_distribution stock m q).1.dropLast,
      line.warehouse_id ≠ none) ∧
    ((∃ line ∈ (Mfg.WarehouseService.get_stock_distribution stock m q).1,
        line.warehouse_id = none) ↔ stockAvail stock m.id < q) ∧
    (∀ line ∈ (Mfg.WarehouseService.get_stock_distribution stock m q).1,
      line.warehouse_id = none →
        line.price = none ∧ line.qty = q - stockAvail stock m.id) := by
  rcases hget : dictGet stock m.id with _ | lots
  · rw [ws_dist_none stock m q hget]
    have hav : stockAvail stock m.id = 0 := by simp [stockAvail, hget]
    refine ⟨by simp, ⟨fun _ => by rw [hav]; exact hq,
      fun _ => ⟨⟨none, m.name, q, none⟩, List.mem_singleton_self _, rfl⟩⟩, ?_⟩
    intro line hline hnull
    simp only [List.mem_singleton] at hline
    subst hline
    exact ⟨rfl, by rw [hav, sub_zero]⟩
  · have hr := ws_allocate_r_eq m.name lots q (le_of_lt hq)
    have hr0 : 0 ≤ (Mfg.WarehouseService.allocate m.name lots q).2.2 := by
      rw [hr]; exact le_max_right _ _
    have hav : stockAvail stock m.id = lotsAvail lots := by simp [stockAvail, hget]
    have hnonnull : ∀ line ∈ (Mfg.WarehouseService.allocate m.name lots q).1,
        line.warehouse_id ≠ none := by
      intro line hline
      obtain ⟨lt, _, _, hw, _⟩ := ws_allocate_mem m.name lots q line hline
      rw [hw]
      simp
    simp only [Mfg.WarehouseService.get_stock_distribution, hget]
    split_ifs with hpos
    · have havlt : lotsAvail lots < q := by
        by_contra hc
        push_neg at hc
        rw [hr, max_eq_right (sub_nonpos.mpr hc)] at hpos
        exact absurd hpos (lt_irrefl 0)
      have hrval : (Mfg.WarehouseService.allocate m.name lots q).2.2 =
          q - lotsAvail lots := by
        rw [hr, max_eq_left (le_of_lt (sub_pos.mpr havlt))]
      refine ⟨?_, ⟨fun _ => by rw [hav]; exact havlt, fun _ => ?_⟩, ?_⟩
      · rw [List.dropLast_concat]
        exact hnonnull
      · exact ⟨_, List.mem_append_right _ (List.mem_singleton_self _), rfl⟩
      · intro line hline hnull
        rcases List.mem_append.mp hline with hs | hsf
        · exact absurd hnull (hnonnull line hs)
        · simp only [List.mem_singleton] at hsf
          subst hsf
          exact ⟨rfl, by rw [hrval, hav]⟩
    · push_neg at hpos
      have h0 : (Mfg.WarehouseService.allocate m.name lots q).2.2 = 0 :=
        le_antisymm hpos hr0
      have hqle : q ≤ lotsAvail lots := by
        rw [hr] at h0
        have := max_eq_right_iff.mp h0
        linarith
      refine ⟨?_, ⟨?_, ?_⟩, ?_⟩
      · intro line hline
        exact hnonnull line ((List.dropLast_sublist _).subset hline)
      · rintro ⟨line, hline, hnull⟩
        exact absurd hnull (hnonnull line hline)
      · intro hlt
        rw [hav] at hlt
        linarith
      · intro line hline hnull
        exact absurd hnull (hnonnull line hline)

theorem view_dist_c5_aux (stock : Stock) (m : Material) (q : ℚ) (hq : 0 < q) :
    (∀ line ∈ (Mfg.ProductMaterialsAPIView.get_stock_distribution stock m q).1.dropLast,
      line.warehouse_id ≠ none) ∧
    ((∃ line ∈ (Mfg.ProductMaterialsAPIView.get_stock_distribution stock m q).1,
        line.warehouse_id = none) ↔ stockAvail stock m.id < q) ∧
    (∀ line ∈ (Mfg.ProductMaterialsAPIView.get_stock_distribution stock m q).1,
      line.warehouse_id = none →
        line.price = none ∧ line.qty = q - stockAvail stock m.id) := by
  obtain ⟨_, ws, hlines, hws, hnull_ws⟩ := view_dist_eq_svc_aux stock m q
  obtain ⟨h1, h2, h3⟩ := ws_dist_c5_aux stock m q hq
  refine ⟨?_, ⟨?_, ?_⟩, ?_⟩
  · by_cases hex : ∃ line ∈ (Mfg.WarehouseService.get_stock_distribution stock m q).1,
        line.warehouse_id = none
    · rw [hlines, hnull_ws hex, List.append_nil]
      exact h1
    · intro line hline
      have hmem := (List.dropLast_sublist _).subset hline
      rw [hlines] at hmem
      rcases List.mem_append.mp hmem with hs | hw
      · intro hn
        exact hex ⟨line, hs, hn⟩
      · exact (hws line hw).2
  · rw [hlines]
    rintro ⟨line, hline, hnull⟩
    rcases List.mem_append.mp hline with hs | hw
    · exact h2.mp ⟨line, hs, hnull⟩
    · exact absurd hnull (hws line hw).2
  · intro hav
    obtain ⟨line, hs, hnull⟩ := h2.mpr hav
    rw [hlines]
    exact ⟨line, List.mem_append_left _ hs, hnull⟩
  · rw [hlines]
    intro line hline hnull
    rcases List.mem_append.mp hline with hs | hw
    · exact h3 line hs hnull
    · exact absurd hnull (hws line hw).2

/-! Helpers for the post pipeline and the validators. -/

theorem contains_dup : ∀ (l₁ l₂ : List Int) (p x : Int),
    (l₁ ++ p :: p :: l₂).contains x = (l₁ ++ p :: l₂).contains x
  | [], l₂, p, x => by
    cases hx : x == p <;> simp [List.contains_cons, hx]
  | a :: l₁, l₂, p, x => by
    simp only [List.cons_append, List.contains_cons, contains_dup l₁ l₂ p x]

theorem validateEntries_ok : ∀ (xs : List JValue),
    Mfg.ProductMaterialsAPIView.validateEntries xs = .ok () ↔
      ∀ p ∈ xs, p.isDict = true ∧ p.hasKey "product" = true ∧ p.hasKey "quantity" = true
  | [] => by simp [Mfg.ProductMaterialsAPIView.validateEntries]
  | p :: rest => by
    simp only [Mfg.ProductMaterialsAPIView.validateEntries, List.forall_mem_cons]
    by_cases hd : p.isDict = true
    · by_cases hp : p.hasKey "product" = true
      · by_cases hq : p.hasKey "quantity" = true
        · simp [hd, hp, hq, validateEntries_ok rest]
        · simp [hd, hp, hq]
      · simp [hd, hp]
    · simp [hd]

/-!
The claim theorems.
-/

/-- C1, counterexample to the claim as stated: for a call with requested
quantity -1 on a material whose only lot is exhausted, both allocators
return no lines at all, so the quantities sum to 0 and not to the requested
quantity. -/
theorem c1_conservation_counterexample :
    ((Mfg.WarehouseService.get_stock_distribution [(7, [⟨10, 7, 0, 1⟩])]
        ⟨7, "M"⟩ (-1)).1.map AllocationLine.qty).sum ≠ -1 ∧
    ((Mfg.ProductMaterialsAPIView.get_stock_distribution [(7, [⟨10, 7, 0, 1⟩])]
        ⟨7, "M"⟩ (-1)).1.map AllocationLine.qty).sum ≠ -1 := by
  constructor <;>
    norm_num [Mfg.WarehouseService.get_stock_distribution,
      Mfg.WarehouseService.allocate, Mfg.ProductMaterialsAPIView.get_stock_distribution,
      Mfg.ProductMaterialsAPIView.allocate, Mfg.dictGet, Mfg.dictSet]

/-- C1 as amended: for every call to either allocator with nonnegative
requested quantity, the qty fields of the returned lines, shortfall line
included, sum to the requested quantity exactly. -/
theorem c1_conservation_nonneg (stock : Stock) (m : Material) (q : ℚ) (hq : 0 ≤ q) :
    ((Mfg.WarehouseService.get_stock_distribution stock m q).1.map
      AllocationLine.qty).sum = q ∧
    ((Mfg.ProductMaterialsAPIView.get_stock_distribution stock m q).1.map
      AllocationLine.qty).sum = q :=
  ⟨ws_dist_sum stock m q hq, view_dist_sum stock m q hq⟩

/-- C1 witness: the amended conservation theorem applied to a concrete call
that spans two lots. -/
theorem c1_conservation_nonneg_witness :
    (0 : ℚ) ≤ 5 ∧
    (((Mfg.WarehouseService.get_stock_distribution [(7, [⟨10, 7, 3, 1⟩, ⟨11, 7, 3, 2⟩])]
        ⟨7, "M"⟩ 5).1.map AllocationLine.qty).sum = 5 ∧
     ((Mfg.ProductMaterialsAPIView.get_stock_distribution
        [(7, [⟨10, 7, 3, 1⟩, ⟨11, 7, 3, 2⟩])] ⟨7, "M"⟩ 5).1.map
          AllocationLine.qty).sum = 5) :=
  ⟨by norm_num, c1_conservation_nonneg [(7, [⟨10, 7, 3, 1⟩, ⟨11, 7, 3, 2⟩])]
    ⟨7, "M"⟩ 5 (by norm_num)⟩

/-- C2: when the warehouse query rows arrive in ascending price order, the
stock index built by WarehouseService.get_stock_for_materials hands every
material a price-ascending lot sequence, and over any whole allocation pass
the non-null prices of the lines emitted for one material are non-decreasing
in emission order. -/
theorem c2_cheapest_first (stock_data : List Lot) (material_ids : List Int)
    (ds : List (Material × ℚ)) (m : Material)
    (hsorted : (stock_data.map Lot.price).Pairwise (· ≤ ·)) :
    (∀ mid lots,
      dictGet (Mfg.WarehouseService.get_stock_for_materials stock_data material_ids) mid =
        some lots → (lots.map Lot.price).Pairwise (· ≤ ·)) ∧
    (passPricesFor m.id (Mfg.WarehouseService.get_stock_for_materials stock_data material_ids)
      ds).Pairwise (· ≤ ·) := by
  have hpl : stock_data.Pairwise (fun a b => a.price ≤ b.price) :=
    List.pairwise_map.mp hsorted
  have hgroups : ∀ mid lots,
      dictGet (Mfg.WarehouseService.get_stock_for_materials stock_data material_ids) mid =
        some lots → lots.Pairwise (fun a b => a.price ≤ b.price) := by
    intro mid lots h
    rw [ws_stock_groups stock_data material_ids mid lots h]
    exact List.Pairwise.sublist ((List.filter_sublist _).trans (List.filter_sublist _)) hpl
  constructor
  · intro mid lots h
    exact List.pairwise_map.mpr (hgroups mid lots h)
  · have hentry : ((dictGet
        (Mfg.WarehouseService.get_stock_for_materials stock_data material_ids) m.id).getD
          []).Pairwise (fun a b => a.price ≤ b.price) := by
      rcases hidx : dictGet
          (Mfg.WarehouseService.get_stock_for_materials stock_data material_ids) m.id
        with _ | lots
      · simp
      · simpa using hgroups m.id lots hidx
    have := passPrices_sorted_aux m.id ds
      (Mfg.WarehouseService.get_stock_for_materials stock_data material_ids) []
      hentry List.Pairwise.nil (by simp)
    simpa using this

/-- C2 witness: the cheapest-first theorem applied to two sorted lots and a
pass of two demands for the same material. -/
theorem c2_cheapest_first_witness :
    (([⟨10, 7, 3, 1⟩, ⟨11, 7, 3, 2⟩] : List Lot).map Lot.price).Pairwise (· ≤ ·) ∧
    ((∀ mid lots,
      dictGet (Mfg.WarehouseService.get_stock_for_materials
        [⟨10, 7, 3, 1⟩, ⟨11, 7, 3, 2⟩] [7]) mid = some lots →
        (lots.map Lot.price).Pairwise (· ≤ ·)) ∧
     (passPricesFor (7 : Int)
        (Mfg.WarehouseService.get_stock_for_materials [⟨10, 7, 3, 1⟩, ⟨11, 7, 3, 2⟩] [7])
        [(⟨7, "M"⟩, 2), (⟨7, "M"⟩, 3)]).Pairwise (· ≤ ·)) :=
  ⟨by decide, c2_cheapest_first [⟨10, 7, 3, 1⟩, ⟨11, 7, 3, 2⟩] [7]
    [(⟨7, "M"⟩, 2), (⟨7, "M"⟩, 3)] ⟨7, "M"⟩ (by decide)⟩

/-- C3, counterexample to the claim as stated: the views allocator does not
stop when the remaining quantity reaches zero; after satisfying a demand of
2 from the first lot it still visits the second lot and emits a line with a
real lot id and qty 0. -/
theorem c3_early_stop_counterexample :
    ∃ line ∈ (Mfg.ProductMaterialsAPIView.get_stock_distribution
        [(7, [⟨10, 7, 3, 1⟩, ⟨11, 7, 3, 2⟩])] ⟨7, "M"⟩ 2).1,
      line.warehouse_id ≠ none ∧ line.qty = 0 := by
  have h : (Mfg.ProductMaterialsAPIView.get_stock_distribution
      [(7, [⟨10, 7, 3, 1⟩, ⟨11, 7, 3, 2⟩])] ⟨7, "M"⟩ 2).1 =
      [⟨some 10, "M", 2, some 1⟩, ⟨some 11, "M", 0, some 2⟩] := by
    norm_num [Mfg.ProductMaterialsAPIView.get_stock_distribution,
      Mfg.ProductMaterialsAPIView.allocate, Mfg.dictGet, Mfg.dictSet, min_def]
  rw [h]
  exact ⟨⟨some 11, "M", 0, some 2⟩, by simp, by simp, rfl⟩

/-- C3 as amended: the WarehouseService allocator does stop as soon as the
remaining quantity reaches zero; for positive requested quantity every line
with a real lot id has positive quantity, and the lots after the satisfying
one are returned untouched, every consumed lot id coming from the touched
prefix. -/
theorem c3_early_stop_amended (stock : Stock) (m : Material) (q : ℚ) (lots : List Lot)
    (hq : 0 < q) (hget : dictGet stock m.id = some lots) :
    (∀ line ∈ (Mfg.WarehouseService.get_stock_distribution stock m q).1,
      line.warehouse_id ≠ none → 0 < line.qty) ∧
    ∃ lots' k, dictGet (Mfg.WarehouseService.get_stock_distribution stock m q).2 m.id =
        some lots' ∧
      lots'.drop k = lots.drop k ∧
      ∀ line ∈ (Mfg.WarehouseService.get_stock_distribution stock m q).1,
        line.warehouse_id = none ∨ ∃ lt ∈ lots.take k, line.warehouse_id = some lt.id := by
  obtain ⟨k, hdrop, hmem⟩ := ws_allocate_untouched m.name lots q
  have hpos_qty := ws_allocate_pos_qty m.name lots q hq
  constructor
  · intro line hline hnn
    simp only [Mfg.WarehouseService.get_stock_distribution, hget] at hline
    split_ifs at hline with hpos
    · rcases List.mem_append.mp hline with hs | hsf
      · exact hpos_qty line hs
      · simp only [List.mem_singleton] at hsf
        subst hsf
        exact absurd rfl hnn
    · exact hpos_qty line hline
  · refine ⟨(Mfg.WarehouseService.allocate m.name lots q).2.1, k, ?_, hdrop, ?_⟩
    · rw [ws_dist_stock stock m q lots hget]
      exact dictGet_dictSet_self stock m.id lots _ hget
    · intro line hline
      simp only [Mfg.WarehouseService.get_stock_distribution, hget] at hline
      split_ifs at hline with hpos
      · rcases List.mem_append.mp hline with hs | hsf
        · exact Or.inr (hmem line hs)
        · simp only [List.mem_singleton] at hsf
          subst hsf
          exact Or.inl rfl
      · exact Or.inr (hmem line hline)

/-- C3 witness: the amended theorem applied to a demand of 2 against two
lots of 3 each. -/
theorem c3_early_stop_amended_witness :
    (0 : ℚ) < 2 ∧
    dictGet [(7, [(⟨10, 7, 3, 1⟩ : Lot), ⟨11, 7, 3, 2⟩])] (Material.mk 7 "M").id =
      some [⟨10, 7, 3, 1⟩, ⟨11, 7, 3, 2⟩] ∧
    ((∀ line ∈ (Mfg.WarehouseService.get_stock_distribution
        [(7, [⟨10, 7, 3, 1⟩, ⟨11, 7, 3, 2⟩])] ⟨7, "M"⟩ 2).1,
      line.warehouse_id ≠ none → 0 < line.qty) ∧
    ∃ lots' k, dictGet (Mfg.WarehouseService.get_stock_distribution
        [(7, [⟨10, 7, 3, 1⟩, ⟨11, 7, 3, 2⟩])] ⟨7, "M"⟩ 2).2 7 = some lots' ∧
      lots'.drop k = ([⟨10, 7, 3, 1⟩, ⟨11, 7, 3, 2⟩] : List Lot).drop k ∧
      ∀ line ∈ (Mfg.WarehouseService.get_stock_distribution
          [(7, [⟨10, 7, 3, 1⟩, ⟨11, 7, 3, 2⟩])] ⟨7, "M"⟩ 2).1,
        line.warehouse_id = none ∨
          ∃ lt ∈ ([⟨10, 7, 3, 1⟩, ⟨11, 7, 3, 2⟩] : List Lot).take k,
            line.warehouse_id = some lt.id) :=
  ⟨by decide, rfl, c3_early_stop_amended [(7, [⟨10, 7, 3, 1⟩, ⟨11, 7, 3, 2⟩])] ⟨7, "M"⟩ 2
    [⟨10, 7, 3, 1⟩, ⟨11, 7, 3, 2⟩] (by decide) rfl⟩

/-- C4, counterexample to the claim as stated: with product 1 requested
twice, once with quantity 2 and once with quantity 3, the post pipeline
returns a single merged result entry built from quantity 3 alone, not two
independent entries. -/
theorem c4_duplicate_products_counterexample :
    Mfg.ProductMaterialsAPIView.post [⟨1, "A"⟩] [⟨1, ⟨7, "M"⟩, 1⟩] [⟨10, 7, 100, 1⟩]
      [(1, 2), (1, 3)] = [⟨"A", 3, [⟨some 10, "M", 3, some 1⟩]⟩] ∧
    (Mfg.ProductMaterialsAPIView.post [⟨1, "A"⟩] [⟨1, ⟨7, "M"⟩, 1⟩] [⟨10, 7, 100, 1⟩]
      [(1, 2), (1, 3)]).length ≠ 2 := by
  have h : Mfg.ProductMaterialsAPIView.post [⟨1, "A"⟩] [⟨1, ⟨7, "M"⟩, 1⟩] [⟨10, 7, 100, 1⟩]
      [(1, 2), (1, 3)] = [⟨"A", 3, [⟨some 10, "M", 3, some 1⟩]⟩] := by
    norm_num [Mfg.ProductMaterialsAPIView.post, Mfg.ProductMaterialsAPIView.buildResults,
      Mfg.ProductMaterialsAPIView.allocateForProduct,
      Mfg.ProductMaterialsAPIView.get_required_materials,
      Mfg.ProductMaterialsAPIView.get_stock_for_materials,
      Mfg.ProductMaterialsAPIView.get_stock_distribution,
      Mfg.ProductMaterialsAPIView.allocate,
      Mfg.dictGet, Mfg.dictSet, Mfg.dictUpsert, Mfg.dictAppend, min_def, List.filter]
  refine ⟨h, ?_⟩
  rw [h]
  simp

/-- C4 as amended: a repeated product id is merged by the quantities dict of
the post pipeline, the later entry overwriting the earlier one in place, so
the earlier duplicate has no effect on the output. -/
theorem c4_duplicate_products_amended (products : List Mfg.Product)
    (pmRows : List Mfg.ProductMaterial) (stock_data : List Lot)
    (xs ys : List (Int × ℚ)) (p : Int) (q1 q2 : ℚ) :
    Mfg.ProductMaterialsAPIView.post products pmRows stock_data
        (xs ++ (p, q1) :: (p, q2) :: ys) =
      Mfg.ProductMaterialsAPIView.post products pmRows stock_data
        (xs ++ (p, q2) :: ys) := by
  have hpq : (xs ++ (p, q1) :: (p, q2) :: ys).foldl
        (fun d e => dictUpsert d e.1 e.2) [] =
      (xs ++ (p, q2) :: ys).foldl (fun d e => dictUpsert d e.1 e.2) [] := by
    rw [List.foldl_append, List.foldl_append]
    simp only [List.foldl_cons]
    rw [dictUpsert_dictUpsert]
  have hids : ∀ i : Int, ((xs ++ (p, q1) :: (p, q2) :: ys).map Prod.fst).contains i =
      ((xs ++ (p, q2) :: ys).map Prod.fst).contains i := by
    intro i
    simp only [List.map_append, List.map_cons]
    exact contains_dup _ _ _ _
  have hfil : products.filter
        (fun pr => ((xs ++ (p, q1) :: (p, q2) :: ys).map Prod.fst).contains pr.id) =
      products.filter
        (fun pr => ((xs ++ (p, q2) :: ys).map Prod.fst).contains pr.id) :=
    List.filter_congr (fun pr _ => hids pr.id)
  simp only [Mfg.ProductMaterialsAPIView.post, hpq, hfil]

/-- C5, counterexample to the claim as stated: a call with requested
quantity 0 on a material absent from the stock index returns a null line
even though the lots, vacuously, cover the request; the if and only if
between the shortfall line and insufficient stock fails. -/
theorem c5_shortfall_counterexample :
    (∃ line ∈ (Mfg.WarehouseService.get_stock_distribution [] ⟨7, "M"⟩ 0).1,
      line.warehouse_id = none) ∧
    ¬ (stockAvail ([] : Stock) 7 < 0) := by
  constructor
  · refine ⟨⟨none, "M", 0, none⟩, ?_, rfl⟩
    norm_num [Mfg.WarehouseService.get_stock_distribution, Mfg.dictGet]
  · norm_num [stockAvail, Mfg.dictGet]

/-- C5 as amended: for every call with positive requested quantity, in both
allocators, every line before the last carries a real lot id (so at most one
shortfall line appears and only in last position), a shortfall line appears
exactly when the available stock of the material is below the requested
quantity, and such a line has null price and carries the unmet remainder. -/
theorem c5_shortfall_amended (stock : Stock) (m : Material) (q : ℚ) (hq : 0 < q) :
    ((∀ line ∈ (Mfg.WarehouseService.get_stock_distribution stock m q).1.dropLast,
        line.warehouse_id ≠ none) ∧
     ((∃ line ∈ (Mfg.WarehouseService.get_stock_distribution stock m q).1,
        line.warehouse_id = none) ↔ stockAvail stock m.id < q) ∧
     (∀ line ∈ (Mfg.WarehouseService.get_stock_distribution stock m q).1,
        line.warehouse_id = none →
          line.price = none ∧ line.qty = q - stockAvail stock m.id)) ∧
    ((∀ line ∈ (Mfg.ProductMaterialsAPIView.get_stock_distribution stock m q).1.dropLast,
        line.warehouse_id ≠ none) ∧
     ((∃ line ∈ (Mfg.ProductMaterialsAPIView.get_stock_distribution stock m q).1,
        line.warehouse_id = none) ↔ stockAvail stock m.id < q) ∧
     (∀ line ∈ (Mfg.ProductMaterialsAPIView.get_stock_distribution stock m q).1,
        line.warehouse_id = none →
          line.price = none ∧ line.qty = q - stockAvail stock m.id)) :=
  ⟨ws_dist_c5_aux stock m q hq, view_dist_c5_aux stock m q hq⟩

/-- C5 witness: the amended shortfall theorem applied to a demand of 5
against a single lot of 3. -/
theorem c5_shortfall_amended_witness :
    (0 : ℚ) < 5 ∧
    ((∀ line ∈ (Mfg.WarehouseService.get_stock_distribution [(7, [⟨10, 7, 3, 1⟩])]
        ⟨7, "M"⟩ 5).1.dropLast, line.warehouse_id ≠ none) ∧
     ((∃ line ∈ (Mfg.WarehouseService.get_stock_distribution [(7, [⟨10, 7, 3, 1⟩])]
        ⟨7, "M"⟩ 5).1, line.warehouse_id = none) ↔
        stockAvail [(7, [⟨10, 7, 3, 1⟩])] (Material.mk 7 "M").id < 5) ∧
     (∀ line ∈ (Mfg.WarehouseService.get_stock_distribution [(7, [⟨10, 7, 3, 1⟩])]
        ⟨7, "M"⟩ 5).1, line.warehouse_id = none →
          line.price = none ∧
            line.qty = 5 - stockAvail [(7, [⟨10, 7, 3, 1⟩])] (Material.mk 7 "M").id)) ∧
    ((∀ line ∈ (Mfg.ProductMaterialsAPIView.get_stock_distribution [(7, [⟨10, 7, 3, 1⟩])]
        ⟨7, "M"⟩ 5).1.dropLast, line.warehouse_id ≠ none) ∧
     ((∃ line ∈ (Mfg.ProductMaterialsAPIView.get_stock_distribution [(7, [⟨10, 7, 3, 1⟩])]
        ⟨7, "M"⟩ 5).1, line.warehouse_id = none) ↔
        stockAvail [(7, [⟨10, 7, 3, 1⟩])] (Material.mk 7 "M").id < 5) ∧
     (∀ line ∈ (Mfg.ProductMaterialsAPIView.get_stock_distribution [(7, [⟨10, 7, 3, 1⟩])]
        ⟨7, "M"⟩ 5).1, line.warehouse_id = none →
          line.price = none ∧
            line.qty = 5 - stockAvail [(7, [⟨10, 7, 3, 1⟩])] (Material.mk 7 "M").id)) :=
  ⟨by decide, c5_shortfall_amended [(7, [⟨10, 7, 3, 1⟩])] ⟨7, "M"⟩ 5 (by decide)⟩

/-- C6: a call on a material id absent from the stock index returns, in both
allocators, exactly one line with null warehouse id and null price carrying
the material name and the full requested quantity, and the stock index comes
back unchanged. -/
theorem c6_no_stock (stock : Stock) (m : Material) (q : ℚ)
    (hget : dictGet stock m.id = none) :
    Mfg.WarehouseService.get_stock_distribution stock m q =
      ([⟨none, m.name, q, none⟩], stock) ∧
    Mfg.ProductMaterialsAPIView.get_stock_distribution stock m q =
      ([⟨none, m.name, q, none⟩], stock) :=
  ⟨ws_dist_none stock m q hget, view_dist_none stock m q hget⟩

/-- C6 witness: the no-stock theorem applied to a material with no entry in
a nonempty index. -/
theorem c6_no_stock_witness :
    dictGet [(8, [(⟨1, 8, 5, 1⟩ : Lot)])] (Material.mk 7 "M").id = none ∧
    (Mfg.WarehouseService.get_stock_distribution [(8, [⟨1, 8, 5, 1⟩])] ⟨7, "M"⟩ 4 =
      ([⟨none, "M", 4, none⟩], [(8, [⟨1, 8, 5, 1⟩])]) ∧
     Mfg.ProductMaterialsAPIView.get_stock_distribution [(8, [⟨1, 8, 5, 1⟩])] ⟨7, "M"⟩ 4 =
      ([⟨none, "M", 4, none⟩], [(8, [⟨1, 8, 5, 1⟩])])) :=
  ⟨rfl, c6_no_stock [(8, [⟨1, 8, 5, 1⟩])] ⟨7, "M"⟩ 4 rfl⟩

/-- C7: across any allocation pass made of positive demands, in both
allocators, every lot keeps its identity and price, its remainder never
increases, and a nonnegative remainder never becomes negative. -/
theorem c7_remainder_monotone (stock : Stock) (ds : List (Material × ℚ))
    (hpos : ∀ d ∈ ds, 0 < d.2) :
    stockDec stock (svcPass stock ds) ∧ stockDec stock (viewPass stock ds) :=
  ⟨svcPass_dec ds stock hpos, viewPass_dec ds stock hpos⟩

/-- C7 witness: the monotonicity theorem applied to a pass of two demands
against one shared lot list. -/
theorem c7_remainder_monotone_witness :
    (∀ d ∈ [((⟨7, "M"⟩ : Material), (2 : ℚ)), (⟨7, "M"⟩, 3)], 0 < d.2) ∧
    (stockDec [(7, [⟨10, 7, 3, 1⟩, ⟨11, 7, 3, 2⟩])]
      (svcPass [(7, [⟨10, 7, 3, 1⟩, ⟨11, 7, 3, 2⟩])]
        [(⟨7, "M"⟩, 2), (⟨7, "M"⟩, 3)]) ∧
     stockDec [(7, [⟨10, 7, 3, 1⟩, ⟨11, 7, 3, 2⟩])]
      (viewPass [(7, [⟨10, 7, 3, 1⟩, ⟨11, 7, 3, 2⟩])]
        [(⟨7, "M"⟩, 2), (⟨7, "M"⟩, 3)])) :=
  ⟨by decide, c7_remainder_monotone [(7, [⟨10, 7, 3, 1⟩, ⟨11, 7, 3, 2⟩])]
    [(⟨7, "M"⟩, 2), (⟨7, "M"⟩, 3)] (by decide)⟩

/-- C8, counterexample to the claim as stated: the handler actually invoked
before the core, ProductMaterialsAPIView.validate_request, accepts an entry
whose product id and quantity are both strings; the type checks live only in
ProductRequestValidator, which post never calls. -/
theorem c8_validation_counterexample :
    Mfg.ProductMaterialsAPIView.validate_request
      (JValue.list [JValue.obj [("product", JValue.str "x"),
        ("quantity", JValue.str "y")]]) = Except.ok () := rfl

/-- C8 as amended: the handler invoked before the core accepts a request
exactly when it is a nonempty list whose entries are all dicts carrying the
product and quantity keys; empty payloads, non-list payloads, non-dict
entries and missing keys are rejected, while non-integer product ids and
non-numeric quantities pass through unchecked. -/
theorem c8_validation_amended (data : JValue) :
    Mfg.ProductMaterialsAPIView.validate_request data = Except.ok () ↔
      ∃ xs, data = JValue.list xs ∧ xs ≠ [] ∧
        ∀ p ∈ xs, p.isDict = true ∧ p.hasKey "product" = true ∧
          p.hasKey "quantity" = true := by
  cases data with
  | null => simp [Mfg.ProductMaterialsAPIView.validate_request, JValue.falsy]
  | bool b =>
    cases b <;>
      simp [Mfg.ProductMaterialsAPIView.validate_request, JValue.falsy, JValue.iterElems]
  | int n =>
    by_cases hn : n = 0 <;>
      simp [Mfg.ProductMaterialsAPIView.validate_request, JValue.falsy,
        JValue.iterElems, hn]
  | float x =>
    by_cases hx : x = 0 <;>
      simp [Mfg.ProductMaterialsAPIView.validate_request, JValue.falsy,
        JValue.iterElems, hx]
  | str s =>
    rcases hs : s.data with _ | ⟨c, cs⟩
    · simp [Mfg.ProductMaterialsAPIView.validate_request, JValue.falsy, hs]
    · simp [Mfg.ProductMaterialsAPIView.validate_request, JValue.falsy, hs,
        JValue.iterElems, Mfg.ProductMaterialsAPIView.validateEntries, JValue.isDict]
  | list xs =>
    rcases xs with _ | ⟨x, xs'⟩
    · simp [Mfg.ProductMaterialsAPIView.validate_request, JValue.falsy]
    · simp [Mfg.ProductMaterialsAPIView.validate_request, JValue.falsy,
        JValue.iterElems, validateEntries_ok]
  | obj fs =>
    rcases fs with _ | ⟨f, fs'⟩
    · simp [Mfg.ProductMaterialsAPIView.validate_request, JValue.falsy]
    · simp [Mfg.ProductMaterialsAPIView.validate_request, JValue.falsy,
        JValue.iterElems, Mfg.ProductMaterialsAPIView.validateEntries, JValue.isDict]

/-- C9, counterexample to the claim as stated: on the same stock index,
material and quantity, the two get_stock_distribution methods return
different line sequences; the views one emits a trailing zero-quantity line
for the lot after the one that satisfied the demand. -/
theorem c9_equivalence_counterexample :
    (Mfg.ProductMaterialsAPIView.get_stock_distribution
        [(7, [⟨10, 7, 3, 1⟩, ⟨11, 7, 3, 2⟩])] ⟨7, "M"⟩ 2).1 ≠
      (Mfg.WarehouseService.get_stock_distribution
        [(7, [⟨10, 7, 3, 1⟩, ⟨11, 7, 3, 2⟩])] ⟨7, "M"⟩ 2).1 := by
  have hv : (Mfg.ProductMaterialsAPIView.get_stock_distribution
      [(7, [⟨10, 7, 3, 1⟩, ⟨11, 7, 3, 2⟩])] ⟨7, "M"⟩ 2).1 =
      [⟨some 10, "M", 2, some 1⟩, ⟨some 11, "M", 0, some 2⟩] := by
    norm_num [Mfg.ProductMaterialsAPIView.get_stock_distribution,
      Mfg.ProductMaterialsAPIView.allocate, Mfg.dictGet, Mfg.dictSet, min_def]
  have hs : (Mfg.WarehouseService.get_stock_distribution
      [(7, [⟨10, 7, 3, 1⟩, ⟨11, 7, 3, 2⟩])] ⟨7, "M"⟩ 2).1 =
      [⟨some 10, "M", 2, some 1⟩] := by
    norm_num [Mfg.WarehouseService.get_stock_distribution,
      Mfg.WarehouseService.allocate, Mfg.dictGet, Mfg.dictSet, min_def]
  rw [hv, hs]
  simp

/-- C9 as amended: the two allocators always leave the stock index in the
same final state, and the views output equals the services output followed
by zero-quantity lines carrying real lot ids; the sequences coincide once
zero-quantity lines are discarded. -/
theorem c9_equivalence_amended (stock : Stock) (m : Material) (q : ℚ) :
    (Mfg.ProductMaterialsAPIView.get_stock_distribution stock m q).2 =
      (Mfg.WarehouseService.get_stock_distribution stock m q).2 ∧
    ∃ ws, (Mfg.ProductMaterialsAPIView.get_stock_distribution stock m q).1 =
        (Mfg.WarehouseService.get_stock_distribution stock m q).1 ++ ws ∧
      ∀ w ∈ ws, w.qty = 0 ∧ w.warehouse_id ≠ none := by
  obtain ⟨h1, ws, h2, h3, _⟩ := view_dist_eq_svc_aux stock m q
  exact ⟨h1, ws, h2, h3⟩

/-- C10: both the unused boundary validator and the handler actually invoked
accept an entry whose quantity is zero or negative; the validators check
only the type of the quantity, never its sign, so non-positive quantities
reach the core without error. -/
theorem c10_nonpositive_quantity (pid : Int) (q : ℚ) (hq : q ≤ 0) :
    Mfg.ProductRequestValidator.validate_product_request
      (JValue.list [JValue.obj [("product", JValue.int pid),
        ("quantity", JValue.float q)]]) = Except.ok () ∧
    Mfg.ProductMaterialsAPIView.validate_request
      (JValue.list [JValue.obj [("product", JValue.int pid),
        ("quantity", JValue.float q)]]) = Except.ok () :=
  ⟨rfl, rfl⟩

/-- C10 witness: the theorem applied to a request entry with quantity -2. -/
theorem c10_nonpositive_quantity_witness :
    ((-2 : ℚ) ≤ 0) ∧
    (Mfg.ProductRequestValidator.validate_product_request
      (JValue.list [JValue.obj [("product", JValue.int 1),
        ("quantity", JValue.float (-2))]]) = Except.ok () ∧
     Mfg.ProductMaterialsAPIView.validate_request
      (JValue.list [JValue.obj [("product", JValue.int 1),
        ("quantity", JValue.float (-2))]]) = Except.ok ()) :=
  ⟨by norm_num, c10_nonpositive_quantity 1 (-2) (by norm_num)⟩
